import Mathlib

/-! Attribute de-duplication filter (`jmf/rapid/rapid.cpp`).

A shallow embedding of `remove_duplicate_nodes` and `rapidwrap::rapid_filter`.

* The rapidxml tree is a value of type `xml_node`; the in-place mutation done by
  `remove_duplicate_nodes` becomes a function from the tree before the call to
  the tree after it.
* The `while (attr)` loop is a step function on an explicit state (the node's
  attribute list, the cursor, the `std::set` of names), iterated by `loop_run`.
* The rapidxml parser and printer are not part of the embedded file; they are
  parameters of `rapid_filter`.
-/

namespace Rapid

/-! ## Data model -/

/-- An attribute of a node: the pair `(name(), value())` of `xml_attribute<char>`. -/
structure xml_attribute where
  name : String
  value : String
deriving DecidableEq

/-- The node kinds of rapidxml (`enum node_type`). -/
inductive node_type where
  | node_document
  | node_element
  | node_data
  | node_cdata
  | node_comment
  | node_declaration
  | node_doctype
  | node_pi
deriving DecidableEq

/-- A node of the tree, `xml_node<char>`: its kind, name, value, the list of its
attributes (first to last) and the list of its children (first to last). -/
inductive xml_node where
  | mk (type : node_type) (name : String) (value : String)
       (attributes : List xml_attribute) (children : List xml_node)

/-- Kind of a node, `node->type()`. -/
def xml_node.type : xml_node → node_type
  | .mk t _ _ _ _ => t

/-- Name of a node, `node->name()`. -/
def xml_node.name : xml_node → String
  | .mk _ n _ _ _ => n

/-- Value (text content) of a node, `node->value()`. -/
def xml_node.value : xml_node → String
  | .mk _ _ v _ _ => v

/-- Attribute list of a node, from `first_attribute()` along `next_attribute()`. -/
def xml_node.attributes : xml_node → List xml_attribute
  | .mk _ _ _ a _ => a

/-- Child list of a node, from `first_node()` along `next_sibling()`. -/
def xml_node.children : xml_node → List xml_node
  | .mk _ _ _ _ c => c

/-- The document is itself a node in rapidxml (`xml_document` derives from
`xml_node`); its children are the top-level nodes. -/
abbrev xml_document := xml_node

/-- The exception thrown by the parser; it carries a message and a position. -/
structure parse_error where
  what : String
  position : Nat
deriving DecidableEq

/-! ## `std::set<std::string>` -/

/-- `s.count(name)`: 1 when `name` is in the set, 0 otherwise. -/
def set_count (s : List String) (name : String) : Nat :=
  if name ∈ s then 1 else 0

/-- `s.insert(name)`: the set with `name` added; unchanged when already there. -/
def set_insert (s : List String) (name : String) : List String :=
  if name ∈ s then s else name :: s

/-! ## The attribute scan of `remove_duplicate_nodes` (lines 12-28) -/

/-- State of the `while (attr)` loop: the node's current attribute list, the
cursor `attr` given as the position of the attribute it points to (a position
past the end is the null pointer), and the set `duplicates`. -/
structure scan_state where
  attributes : List xml_attribute
  attr : Nat
  duplicates : List String
deriving DecidableEq

/-- `node->first_attribute()`: the cursor on the first attribute. -/
def first_attribute : Nat := 0

/-- `attr->next_attribute()`: the cursor on the following attribute. -/
def next_attribute (attr : Nat) : Nat := attr + 1

/-- `node->remove_attribute(where)`: unlink the attribute at position `where`
from the node's list. Returns the new list together with a cursor `held` that
was pointing at a later attribute: that attribute now sits one place earlier. -/
def remove_attribute (attributes : List xml_attribute) (wh : Nat) (held : Nat) :
    List xml_attribute × Nat :=
  (attributes.eraseIdx wh, held - 1)

/-- One iteration of the loop body; `none` when the loop condition `attr` is
false (the cursor is null). -/
def loop_step (s : scan_state) : Option scan_state :=
  match s.attributes[s.attr]? with
  | none => none
  | some a =>
    let name := a.name
    if set_count s.duplicates name = 1 then
      let prev := s.attr
      let attr := next_attribute s.attr
      let r := remove_attribute s.attributes prev attr
      some { attributes := r.1, attr := r.2, duplicates := s.duplicates }
    else
      some { attributes := s.attributes,
             attr := next_attribute s.attr,
             duplicates := set_insert s.duplicates name }

/-- The loop, run for at most `fuel` iterations. -/
def loop_run : Nat → scan_state → scan_state
  | 0, s => s
  | fuel + 1, s =>
    match loop_step s with
    | none => s
    | some s' => loop_run fuel s'

/-- State on entry to the loop: an empty set and the cursor on the first attribute. -/
def scan_init (attributes : List xml_attribute) : scan_state :=
  { attributes := attributes, attr := first_attribute, duplicates := [] }

/-- The attribute list a node is left with by the scan. One unit of fuel per
attribute of the node is enough for the loop to reach its exit
(`loop_exits`). -/
def scan_attributes (attributes : List xml_attribute) : List xml_attribute :=
  (loop_run attributes.length (scan_init attributes)).attributes

/-! ## `remove_duplicate_nodes` (lines 9-33) -/

mutual
/-- The tree after `remove_duplicate_nodes(node)`: the scan on the node's own
attributes, then the `for` loop over the children. -/
def remove_duplicate_nodes : xml_node → xml_node
  | .mk t n v attributes children =>
    .mk t n v (scan_attributes attributes) (remove_duplicate_siblings children)
/-- The loop `for (child = first; child; child = child->next_sibling())
remove_duplicate_nodes(child)` over a sibling list. -/
def remove_duplicate_siblings : List xml_node → List xml_node
  | [] => []
  | child :: rest => remove_duplicate_nodes child :: remove_duplicate_siblings rest
end

/-! ## `rapidwrap::rapid_filter` (lines 38-65) -/

/-- The document after the loop of lines 52-55: `remove_duplicate_nodes` on each
top-level node; the document node itself is not passed to it. -/
def filter_document : xml_document → xml_document
  | .mk t n v attributes children =>
    .mk t n v attributes (remove_duplicate_siblings children)

/-- `rapid_filter(src_xml)`. `parse` is `doc.parse<0>` on the text (an error is
the thrown `parse_error`), `print` is `oss << doc`. -/
def rapid_filter (parse : String → Except parse_error xml_document)
    (print : xml_document → String) (src_xml : String) : String :=
  match parse src_xml with
  | .error _ => ""
  | .ok doc => print (filter_document doc)

/-! ## Notions used to state the properties -/

/-- The names of an attribute list, in order. -/
def attribute_names (attributes : List xml_attribute) : List String :=
  attributes.map xml_attribute.name

/-- The node reached from `n` along a path of child positions; the empty path
is `n` itself. Every node of the subtree of `n` is reached by exactly one path. -/
def node_at (n : xml_node) : List Nat → Option xml_node
  | [] => some n
  | i :: path =>
    match n.children[i]? with
    | none => none
    | some child => node_at child path

/-- The first attribute named `name` in an attribute list (the one of lowest
index), if any. -/
def first_named (name : String) (attributes : List xml_attribute) : Option xml_attribute :=
  attributes.find? (fun a => a.name = name)

/-- Reference procedure: build a new attribute list, keeping the first
occurrence of each name (`seen` holds the names already taken). -/
def keep_first_occurrence : List String → List xml_attribute → List xml_attribute
  | _, [] => []
  | seen, a :: rest =>
    if a.name ∈ seen then keep_first_occurrence seen rest
    else a :: keep_first_occurrence (a.name :: seen) rest

/-- The set `duplicates` after scanning `rest` from the set `seen`. -/
def names_after (seen : List String) (rest : List xml_attribute) : List String :=
  rest.foldl (fun s a => set_insert s a.name) seen

mutual
/-- The tree with every attribute of every node erased. -/
def erase_attributes : xml_node → xml_node
  | .mk t n v _ children => .mk t n v [] (erase_attributes_list children)
/-- Attribute erasure along a sibling list. -/
def erase_attributes_list : List xml_node → List xml_node
  | [] => []
  | child :: rest => erase_attributes child :: erase_attributes_list rest
end

/-! ## Sample data -/

/-- The tree of `<root a="1" a="2"><child x="9" x="9" y="5"/></root>`. -/
def sample_root : xml_node :=
  .mk .node_element "root" "" [⟨"a", "1"⟩, ⟨"a", "2"⟩]
    [.mk .node_element "child" "" [⟨"x", "9"⟩, ⟨"x", "9"⟩, ⟨"y", "5"⟩] []]

/-- The tree of `<root a="1"><child x="9" y="5"/></root>`. -/
def sample_root_clean : xml_node :=
  .mk .node_element "root" "" [⟨"a", "1"⟩]
    [.mk .node_element "child" "" [⟨"x", "9"⟩, ⟨"y", "5"⟩] []]

/-- A node with attributes `a=1, b=2, a=3` and a parent that also carries `a`. -/
def sample_nested : xml_node :=
  .mk .node_element "p" "" [⟨"a", "0"⟩]
    [.mk .node_element "q" "" [⟨"a", "1"⟩, ⟨"b", "2"⟩, ⟨"a", "3"⟩] []]

/-- A document with two top-level nodes, each with a duplicated attribute. -/
def sample_document : xml_document :=
  .mk .node_document "" "" []
    [sample_root, .mk .node_element "tail" "" [⟨"k", "1"⟩, ⟨"k", "2"⟩] []]

/-- The document without nodes. -/
def empty_document : xml_document :=
  .mk .node_document "" "" [] []

/-- Text of `sample_document`. -/
def sample_text : String :=
  "<root a=\"1\" a=\"2\"><child x=\"9\" x=\"9\" y=\"5\"/></root><tail k=\"1\" k=\"2\"/>"

/-- Text of `sample_document` once its attributes are de-duplicated. -/
def sample_text_clean : String :=
  "<root a=\"1\"><child x=\"9\" y=\"5\"/></root><tail k=\"1\"/>"

/-- A stand-in for the parser, used to instantiate the `parse` parameter on
concrete texts: it knows the sample texts and the empty text and rejects every
other text. It is not the rapidxml parser. -/
def sample_parse (text : String) : Except parse_error xml_document :=
  if text = sample_text then .ok sample_document
  else if text = sample_text_clean then .ok (filter_document sample_document)
  else if text = "" then .ok empty_document
  else .error ⟨"expected <", 0⟩

/-- Rendering of an attribute list by `sample_print`. -/
def sample_print_attributes : List xml_attribute → String
  | [] => ""
  | a :: rest => " " ++ a.name ++ "=\"" ++ a.value ++ "\"" ++ sample_print_attributes rest

mutual
/-- Rendering of a node by `sample_print`. -/
def sample_print_node : xml_node → String
  | .mk _ n _ attributes [] => "<" ++ n ++ sample_print_attributes attributes ++ "/>"
  | .mk _ n _ attributes (c :: cs) =>
    "<" ++ n ++ sample_print_attributes attributes ++ ">"
      ++ sample_print_nodes (c :: cs) ++ "</" ++ n ++ ">"
/-- Rendering of a sibling list by `sample_print`. -/
def sample_print_nodes : List xml_node → String
  | [] => ""
  | c :: rest => sample_print_node c ++ sample_print_nodes rest
end

/-- A stand-in for the printer, used to instantiate the `print` parameter: the
top-level nodes one after the other. It is not the rapidxml printer. -/
def sample_print (doc : xml_document) : String :=
  sample_print_nodes doc.children

/-! ## The scan, instrumented -/

/-- The attributes the loop examines, in the order of its iterations: at each
iteration, the attribute the cursor `attr` points to on entry to the body. -/
def loop_visits : Nat → scan_state → List xml_attribute
  | 0, _ => []
  | fuel + 1, s =>
    match s.attributes[s.attr]?, loop_step s with
    | some a, some s' => a :: loop_visits fuel s'
    | _, _ => []

/-- The number of iterations the loop performs, within `fuel`, before its
condition is false. -/
def loop_iterations : Nat → scan_state → Nat
  | 0, _ => 0
  | fuel + 1, s =>
    match loop_step s with
    | none => 0
    | some s' => loop_iterations fuel s' + 1

mutual
/-- The number of iterations of the `while` loop performed by
`remove_duplicate_nodes(node)`, the recursive calls on the children included. -/
def count_iterations : xml_node → Nat
  | .mk _ _ _ attributes children =>
    loop_iterations attributes.length (scan_init attributes)
      + count_iterations_siblings children
/-- The iterations performed by the calls of the `for` loop over a sibling list. -/
def count_iterations_siblings : List xml_node → Nat
  | [] => 0
  | child :: rest => count_iterations child + count_iterations_siblings rest
end

mutual
/-- The number of attributes in a subtree: those of the node and of all its
descendants. -/
def total_attributes : xml_node → Nat
  | .mk _ _ _ attributes children => attributes.length + total_attributes_siblings children
/-- The number of attributes in the subtrees of a sibling list. -/
def total_attributes_siblings : List xml_node → Nat
  | [] => 0
  | child :: rest => total_attributes child + total_attributes_siblings rest
end

/-- An attribute with its value sent through `f`; the name is untouched. -/
def map_value (f : String → String) (a : xml_attribute) : xml_attribute :=
  { name := a.name, value := f a.value }

mutual
/-- The tree with the value of every attribute sent through `f`. -/
def map_values (f : String → String) : xml_node → xml_node
  | .mk t n v attributes children =>
    .mk t n v (attributes.map (map_value f)) (map_values_siblings f children)
/-- The value map along a sibling list. -/
def map_values_siblings (f : String → String) : List xml_node → List xml_node
  | [] => []
  | child :: rest => map_values f child :: map_values_siblings f rest
end

/-! ## The scan computes the first occurrences -/

theorem loop_step_at_end (pre : List xml_attribute) (seen : List String) :
    loop_step ⟨pre, pre.length, seen⟩ = none := by
  simp [loop_step]

theorem loop_step_seen (pre rest : List xml_attribute) (a : xml_attribute)
    (seen : List String) (h : a.name ∈ seen) :
    loop_step ⟨pre ++ a :: rest, pre.length, seen⟩ = some ⟨pre ++ rest, pre.length, seen⟩ := by
  have hget : (pre ++ a :: rest)[pre.length]? = some a := by
    rw [List.getElem?_append_right (le_refl _)]; simp
  simp [loop_step, hget, set_count, h, remove_attribute, next_attribute,
    List.eraseIdx_append_of_length_le]

theorem loop_step_fresh (pre rest : List xml_attribute) (a : xml_attribute)
    (seen : List String) (h : a.name ∉ seen) :
    loop_step ⟨pre ++ a :: rest, pre.length, seen⟩
      = some ⟨(pre ++ [a]) ++ rest, (pre ++ [a]).length, a.name :: seen⟩ := by
  have hget : (pre ++ a :: rest)[pre.length]? = some a := by
    rw [List.getElem?_append_right (le_refl _)]; simp
  simp [loop_step, hget, set_count, h, set_insert, next_attribute]

/-- Loop invariant, in closed form: started with the cursor after `pre`, the
loop leaves `pre` followed by the first occurrences in `rest` of the names not
yet seen, with the cursor at the end of the list. -/
theorem loop_run_from (rest : List xml_attribute) :
    ∀ (pre : List xml_attribute) (seen : List String) (fuel : Nat),
      rest.length ≤ fuel →
      loop_run fuel ⟨pre ++ rest, pre.length, seen⟩
        = ⟨pre ++ keep_first_occurrence seen rest,
           (pre ++ keep_first_occurrence seen rest).length,
           names_after seen rest⟩ := by
  induction rest with
  | nil =>
    intro pre seen fuel _
    cases fuel with
    | zero => simp [loop_run, keep_first_occurrence, names_after]
    | succ f =>
      have h := loop_step_at_end (pre ++ []) seen
      simp only [List.append_nil] at h
      simp [loop_run, keep_first_occurrence, names_after, h]
  | cons a rest ih =>
    intro pre seen fuel hf
    cases fuel with
    | zero => simp at hf
    | succ f =>
      have hf' : rest.length ≤ f := by simpa using hf
      by_cases h : a.name ∈ seen
      · rw [loop_run, loop_step_seen pre rest a seen h]
        simp only
        rw [ih pre seen f hf']
        simp [keep_first_occurrence, h, names_after, set_insert]
      · rw [loop_run, loop_step_fresh pre rest a seen h]
        simp only
        rw [ih (pre ++ [a]) (a.name :: seen) f hf']
        simp [keep_first_occurrence, h, names_after, set_insert]

theorem scan_attributes_eq (attributes : List xml_attribute) :
    scan_attributes attributes = keep_first_occurrence [] attributes := by
  have h := loop_run_from attributes [] [] attributes.length (le_refl _)
  simp only [List.nil_append, List.length_nil] at h
  simp [scan_attributes, scan_init, first_attribute, h]

/-- With one unit of fuel per attribute the loop stops because its condition
is false, not because the fuel ran out. -/
theorem loop_exits (attributes : List xml_attribute) :
    loop_step (loop_run attributes.length (scan_init attributes)) = none := by
  have h := loop_run_from attributes [] [] attributes.length (le_refl _)
  simp only [List.nil_append, List.length_nil] at h
  simp only [scan_init, first_attribute, h]
  exact loop_step_at_end _ _

/-! ## Properties of the first-occurrence list -/

theorem keep_first_sublist (l : List xml_attribute) :
    ∀ seen : List String, List.Sublist (keep_first_occurrence seen l) l := by
  induction l with
  | nil => intro seen; simp [keep_first_occurrence]
  | cons a rest ih =>
    intro seen
    by_cases h : a.name ∈ seen
    · simpa [keep_first_occurrence, h] using (ih seen).cons a
    · simpa [keep_first_occurrence, h] using (ih (a.name :: seen)).cons₂ a

theorem keep_first_avoids_seen (l : List xml_attribute) :
    ∀ (seen : List String) (b : xml_attribute),
      b ∈ keep_first_occurrence seen l → b.name ∉ seen := by
  induction l with
  | nil => intro seen b hb; simp [keep_first_occurrence] at hb
  | cons a rest ih =>
    intro seen b hb
    by_cases h : a.name ∈ seen
    · simp only [keep_first_occurrence, h, if_true] at hb
      exact ih seen b hb
    · simp only [keep_first_occurrence, h, if_false, List.mem_cons] at hb
      rcases hb with rfl | hb
      · exact h
      · intro hmem
        exact ih (a.name :: seen) b hb (List.mem_cons_of_mem _ hmem)

theorem keep_first_names_nodup (l : List xml_attribute) :
    ∀ seen : List String, (attribute_names (keep_first_occurrence seen l)).Nodup := by
  induction l with
  | nil => intro seen; simp [keep_first_occurrence, attribute_names]
  | cons a rest ih =>
    intro seen
    by_cases h : a.name ∈ seen
    · simpa [keep_first_occurrence, h] using ih seen
    · simp only [keep_first_occurrence, h, if_false, attribute_names, List.map_cons,
        List.nodup_cons]
      refine ⟨?_, ih (a.name :: seen)⟩
      intro hmem
      obtain ⟨b, hb, hname⟩ := List.mem_map.mp hmem
      exact keep_first_avoids_seen rest (a.name :: seen) b hb (by simp [hname])

theorem keep_first_first_named (l : List xml_attribute) :
    ∀ (seen : List String) (n : String), n ∉ seen →
      first_named n (keep_first_occurrence seen l) = first_named n l := by
  induction l with
  | nil => intro seen n _; simp [keep_first_occurrence]
  | cons a rest ih =>
    intro seen n hn
    by_cases h : a.name ∈ seen
    · have hne : a.name ≠ n := fun e => hn (e ▸ h)
      simp only [keep_first_occurrence, h, if_true]
      rw [ih seen n hn]
      simp [first_named, List.find?_cons, hne]
    · simp only [keep_first_occurrence, h, if_false]
      by_cases e : a.name = n
      · simp [first_named, List.find?_cons, e]
      · have hn' : n ∉ a.name :: seen := by
          simp only [List.mem_cons, not_or]
          exact ⟨fun e' => e e'.symm, hn⟩
        have := ih (a.name :: seen) n hn'
        simp only [first_named] at this ⊢
        simp [List.find?_cons, e, this]

theorem keep_first_mem_names (l : List xml_attribute) :
    ∀ (seen : List String) (n : String), n ∉ seen → n ∈ attribute_names l →
      n ∈ attribute_names (keep_first_occurrence seen l) := by
  induction l with
  | nil => intro seen n _ h; simp [attribute_names] at h
  | cons a rest ih =>
    intro seen n hn hmem
    simp only [attribute_names, List.map_cons, List.mem_cons] at hmem
    by_cases h : a.name ∈ seen
    · simp only [keep_first_occurrence, h, if_true]
      rcases hmem with e | hmem
      · exact absurd (e ▸ h) hn
      · exact ih seen n hn hmem
    · simp only [keep_first_occurrence, h, if_false, attribute_names, List.map_cons,
        List.mem_cons]
      rcases hmem with e | hmem
      · exact Or.inl e
      · by_cases e : n = a.name
        · exact Or.inl e
        · right
          refine ih (a.name :: seen) n ?_ hmem
          simp only [List.mem_cons, not_or]
          exact ⟨e, hn⟩

theorem keep_first_of_distinct (l : List xml_attribute) :
    ∀ seen : List String, (attribute_names l).Nodup →
      (∀ n ∈ attribute_names l, n ∉ seen) → keep_first_occurrence seen l = l := by
  induction l with
  | nil => intro seen _ _; simp [keep_first_occurrence]
  | cons a rest ih =>
    intro seen hnd hdis
    simp only [attribute_names, List.map_cons, List.nodup_cons] at hnd
    have h : a.name ∉ seen := hdis a.name (by simp [attribute_names])
    simp only [keep_first_occurrence, h, if_false, List.cons.injEq, true_and]
    refine ih (a.name :: seen) hnd.2 ?_
    intro n hn
    simp only [List.mem_cons, not_or]
    refine ⟨?_, hdis n (by simp only [attribute_names, List.map_cons, List.mem_cons]; exact Or.inr hn)⟩
    intro e
    exact hnd.1 (e ▸ hn)

theorem scan_attributes_of_distinct (l : List xml_attribute)
    (h : (attribute_names l).Nodup) : scan_attributes l = l := by
  rw [scan_attributes_eq]
  exact keep_first_of_distinct l [] h (fun _ _ => by simp)

theorem scan_attributes_idem (l : List xml_attribute) :
    scan_attributes (scan_attributes l) = scan_attributes l := by
  apply scan_attributes_of_distinct
  rw [scan_attributes_eq]
  exact keep_first_names_nodup l []

/-! ## The tree walk -/

theorem remove_duplicate_siblings_eq_map (l : List xml_node) :
    remove_duplicate_siblings l = l.map remove_duplicate_nodes := by
  induction l with
  | nil => simp [remove_duplicate_siblings]
  | cons c rest ih => simp [remove_duplicate_siblings, ih]

theorem erase_attributes_list_eq_map (l : List xml_node) :
    erase_attributes_list l = l.map erase_attributes := by
  induction l with
  | nil => simp [erase_attributes_list]
  | cons c rest ih => simp [erase_attributes_list, ih]

/-- Induction over trees: a property holds of every node when it holds of a
node as soon as it holds of all its children. -/
theorem xml_node_induction (P : xml_node → Prop)
    (step : ∀ t n v a children, (∀ c ∈ children, P c) → P (.mk t n v a children)) :
    ∀ node, P node := by
  intro node
  refine xml_node.rec (motive_1 := P) (motive_2 := fun l => ∀ c ∈ l, P c)
    (fun t n v a children ih => step t n v a children ih) ?_ ?_ node
  · intro c hc; simp at hc
  · intro head tail hh ht c hc
    simp only [List.mem_cons] at hc
    rcases hc with rfl | hc
    · exact hh
    · exact ht c hc

theorem remove_duplicate_nodes_mk (t : node_type) (n v : String)
    (a : List xml_attribute) (children : List xml_node) :
    remove_duplicate_nodes (.mk t n v a children)
      = .mk t n v (keep_first_occurrence [] a) (children.map remove_duplicate_nodes) := by
  rw [remove_duplicate_nodes, scan_attributes_eq, remove_duplicate_siblings_eq_map]

theorem remove_duplicate_nodes_eq (node : xml_node) :
    remove_duplicate_nodes node
      = .mk node.type node.name node.value (keep_first_occurrence [] node.attributes)
          (node.children.map remove_duplicate_nodes) := by
  cases node with
  | mk t n v a children => exact remove_duplicate_nodes_mk t n v a children

/-- The node at a path of the processed tree is the processed node at that path. -/
theorem node_at_remove_duplicate_nodes (path : List Nat) :
    ∀ root : xml_node,
      node_at (remove_duplicate_nodes root) path
        = (node_at root path).map remove_duplicate_nodes := by
  induction path with
  | nil => intro root; simp [node_at]
  | cons i path ih =>
    intro root
    cases root with
    | mk t n v a children =>
      rw [remove_duplicate_nodes_mk]
      simp only [node_at, xml_node.children, List.getElem?_map]
      cases h : children[i]? with
      | none => simp
      | some c => simpa using ih c

theorem remove_duplicate_nodes_idem :
    ∀ node, remove_duplicate_nodes (remove_duplicate_nodes node) = remove_duplicate_nodes node := by
  apply xml_node_induction
  intro t n v a children ih
  simp only [remove_duplicate_nodes, remove_duplicate_siblings_eq_map, scan_attributes_idem,
    List.map_map]
  congr 1
  apply List.map_congr_left
  intro c hc
  exact ih c hc

theorem erase_attributes_remove_duplicate_nodes :
    ∀ node, erase_attributes (remove_duplicate_nodes node) = erase_attributes node := by
  apply xml_node_induction
  intro t n v a children ih
  simp only [remove_duplicate_nodes, erase_attributes, remove_duplicate_siblings_eq_map,
    erase_attributes_list_eq_map, List.map_map]
  congr 1
  apply List.map_congr_left
  intro c hc
  exact ih c hc

theorem first_named_of_mem (l : List xml_attribute) (n : String)
    (h : n ∈ attribute_names l) : ∃ a, first_named n l = some a := by
  induction l with
  | nil => simp [attribute_names] at h
  | cons b rest ih =>
    by_cases e : b.name = n
    · exact ⟨b, by simp [first_named, List.find?_cons, e]⟩
    · simp only [attribute_names, List.map_cons, List.mem_cons] at h
      rcases h with h | h
      · exact absurd h.symm e
      · obtain ⟨a, ha⟩ := ih h
        refine ⟨a, ?_⟩
        simp only [first_named] at ha ⊢
        simp [List.find?_cons, e, ha]

theorem filter_of_first_named (l : List xml_attribute) (n : String) (a : xml_attribute)
    (hnd : (attribute_names l).Nodup) (h : first_named n l = some a) :
    l.filter (fun b => b.name = n) = [a] := by
  induction l with
  | nil => simp [first_named] at h
  | cons b rest ih =>
    simp only [attribute_names, List.map_cons, List.nodup_cons] at hnd
    by_cases e : b.name = n
    · have hab : b = a := by simpa [first_named, List.find?_cons, e] using h
      subst hab
      have hnone : rest.filter (fun c => c.name = n) = [] := by
        rw [List.filter_eq_nil_iff]
        intro c hc
        simp only [decide_eq_true_eq]
        intro hcn
        exact hnd.1 (List.mem_map.mpr ⟨c, hc, by rw [hcn, e]⟩)
      simp [List.filter_cons, e, hnone]
    · have h' : first_named n rest = some a := by
        simp only [first_named] at h ⊢
        simpa [List.find?_cons, e] using h
      simp [List.filter_cons, e, ih hnd.2 h']

theorem filter_document_idem (d : xml_document) :
    filter_document (filter_document d) = filter_document d := by
  cases d with
  | mk t n v a children =>
    simp only [filter_document, remove_duplicate_siblings_eq_map, List.map_map]
    congr 1
    apply List.map_congr_left
    intro c _
    exact remove_duplicate_nodes_idem c

/-! ## The instrumented scan -/

/-- Started with the cursor after `pre`, the loop examines the attributes of
`rest`, each once, in order. -/
theorem loop_visits_from (rest : List xml_attribute) :
    ∀ (pre : List xml_attribute) (seen : List String) (fuel : Nat),
      rest.length ≤ fuel →
      loop_visits fuel ⟨pre ++ rest, pre.length, seen⟩ = rest := by
  induction rest with
  | nil =>
    intro pre seen fuel _
    cases fuel with
    | zero => simp [loop_visits]
    | succ f =>
      have h := loop_step_at_end (pre ++ []) seen
      simp only [List.append_nil] at h
      simp [loop_visits, h]
  | cons a rest ih =>
    intro pre seen fuel hf
    cases fuel with
    | zero => simp at hf
    | succ f =>
      have hf' : rest.length ≤ f := by simpa using hf
      have hget : (pre ++ a :: rest)[pre.length]? = some a := by
        rw [List.getElem?_append_right (le_refl _)]; simp
      by_cases h : a.name ∈ seen
      · simp only [loop_visits, hget, loop_step_seen pre rest a seen h]
        rw [ih pre seen f hf']
      · simp only [loop_visits, hget, loop_step_fresh pre rest a seen h]
        rw [ih (pre ++ [a]) (a.name :: seen) f hf']

/-- Started with the cursor after `pre`, the loop performs one iteration per
attribute of `rest`. -/
theorem loop_iterations_from (rest : List xml_attribute) :
    ∀ (pre : List xml_attribute) (seen : List String) (fuel : Nat),
      rest.length ≤ fuel →
      loop_iterations fuel ⟨pre ++ rest, pre.length, seen⟩ = rest.length := by
  induction rest with
  | nil =>
    intro pre seen fuel _
    cases fuel with
    | zero => simp [loop_iterations]
    | succ f =>
      have h := loop_step_at_end (pre ++ []) seen
      simp only [List.append_nil] at h
      simp [loop_iterations, h]
  | cons a rest ih =>
    intro pre seen fuel hf
    cases fuel with
    | zero => simp at hf
    | succ f =>
      have hf' : rest.length ≤ f := by simpa using hf
      by_cases h : a.name ∈ seen
      · simp only [loop_iterations, loop_step_seen pre rest a seen h]
        rw [ih pre seen f hf']; simp
      · simp only [loop_iterations, loop_step_fresh pre rest a seen h]
        rw [ih (pre ++ [a]) (a.name :: seen) f hf']; simp

theorem loop_iterations_init (attributes : List xml_attribute) (extra : Nat) :
    loop_iterations (attributes.length + extra) (scan_init attributes) = attributes.length := by
  have h := loop_iterations_from attributes [] [] (attributes.length + extra)
    (Nat.le_add_right _ _)
  simpa [scan_init, first_attribute] using h

theorem loop_exits_with (attributes : List xml_attribute) (extra : Nat) :
    loop_step (loop_run (attributes.length + extra) (scan_init attributes)) = none := by
  have h := loop_run_from attributes [] [] (attributes.length + extra) (Nat.le_add_right _ _)
  simp only [List.nil_append, List.length_nil] at h
  simp only [scan_init, first_attribute, h]
  exact loop_step_at_end _ _

theorem count_iterations_siblings_eq (l : List xml_node)
    (h : ∀ c ∈ l, count_iterations c = total_attributes c) :
    count_iterations_siblings l = total_attributes_siblings l := by
  induction l with
  | nil => simp [count_iterations_siblings, total_attributes_siblings]
  | cons c rest ih =>
    simp only [count_iterations_siblings, total_attributes_siblings]
    rw [h c (by simp), ih (fun d hd => h d (List.mem_cons_of_mem _ hd))]

theorem count_iterations_eq :
    ∀ node, count_iterations node = total_attributes node := by
  apply xml_node_induction
  intro t n v a children ih
  simp only [count_iterations, total_attributes]
  rw [count_iterations_siblings_eq children ih]
  have h := loop_iterations_init a 0
  simp only [Nat.add_zero] at h
  rw [h]

/-! ## Names decide, values do not -/

theorem keep_first_snoc (l : List xml_attribute) (b : xml_attribute) :
    ∀ seen : List String,
      keep_first_occurrence seen (l ++ [b])
        = if b.name ∈ seen ∨ b.name ∈ attribute_names l then keep_first_occurrence seen l
          else keep_first_occurrence seen l ++ [b] := by
  induction l with
  | nil =>
    intro seen
    by_cases h : b.name ∈ seen <;> simp [keep_first_occurrence, attribute_names, h]
  | cons a rest ih =>
    intro seen
    have hnames : attribute_names (a :: rest) = a.name :: attribute_names rest := rfl
    by_cases h : a.name ∈ seen
    · have e1 : keep_first_occurrence seen ((a :: rest) ++ [b])
          = keep_first_occurrence seen (rest ++ [b]) := by
        simp [keep_first_occurrence, h]
      have e2 : keep_first_occurrence seen (a :: rest) = keep_first_occurrence seen rest := by
        simp [keep_first_occurrence, h]
      have hiff : (b.name ∈ seen ∨ b.name ∈ attribute_names (a :: rest))
          ↔ (b.name ∈ seen ∨ b.name ∈ attribute_names rest) := by
        rw [hnames, List.mem_cons]
        constructor
        · rintro (h1 | h2 | h3)
          · exact Or.inl h1
          · exact Or.inl (h2 ▸ h)
          · exact Or.inr h3
        · rintro (h1 | h3)
          · exact Or.inl h1
          · exact Or.inr (Or.inr h3)
      rw [e1, e2, ih seen]
      exact if_congr hiff.symm rfl rfl
    · have e1 : keep_first_occurrence seen ((a :: rest) ++ [b])
          = a :: keep_first_occurrence (a.name :: seen) (rest ++ [b]) := by
        simp [keep_first_occurrence, h]
      have e2 : keep_first_occurrence seen (a :: rest)
          = a :: keep_first_occurrence (a.name :: seen) rest := by
        simp [keep_first_occurrence, h]
      have hiff : (b.name ∈ seen ∨ b.name ∈ attribute_names (a :: rest))
          ↔ (b.name ∈ a.name :: seen ∨ b.name ∈ attribute_names rest) := by
        rw [hnames, List.mem_cons, List.mem_cons]
        tauto
      rw [e1, e2, ih (a.name :: seen)]
      by_cases c : b.name ∈ a.name :: seen ∨ b.name ∈ attribute_names rest
      · rw [if_pos c, if_pos (hiff.mpr c)]
      · rw [if_neg c, if_neg (fun x => c (hiff.mp x))]
        rfl

theorem scan_attributes_snoc (l : List xml_attribute) (b : xml_attribute) :
    scan_attributes (l ++ [b])
      = if b.name ∈ attribute_names l then scan_attributes l else scan_attributes l ++ [b] := by
  rw [scan_attributes_eq, scan_attributes_eq, keep_first_snoc]
  simp

theorem keep_first_map_value (f : String → String) (l : List xml_attribute) :
    ∀ seen : List String,
      keep_first_occurrence seen (l.map (map_value f))
        = (keep_first_occurrence seen l).map (map_value f) := by
  induction l with
  | nil => intro seen; simp [keep_first_occurrence]
  | cons a rest ih =>
    intro seen
    by_cases h : a.name ∈ seen
    · simp [keep_first_occurrence, map_value, h, ih seen]
    · have := ih (a.name :: seen)
      simp only [map_value] at this
      simp [keep_first_occurrence, map_value, h, this]

theorem map_values_siblings_eq_map (f : String → String) (l : List xml_node) :
    map_values_siblings f l = l.map (map_values f) := by
  induction l with
  | nil => simp [map_values_siblings]
  | cons c rest ih => simp [map_values_siblings, ih]

theorem remove_duplicate_nodes_map_values (f : String → String) :
    ∀ node, remove_duplicate_nodes (map_values f node)
      = map_values f (remove_duplicate_nodes node) := by
  apply xml_node_induction
  intro t n v a children ih
  simp only [map_values, remove_duplicate_nodes, remove_duplicate_siblings_eq_map,
    map_values_siblings_eq_map, scan_attributes_eq, keep_first_map_value, List.map_map]
  congr 1
  apply List.map_congr_left
  intro c hc
  exact ih c hc

theorem keep_first_names_subset (l : List xml_attribute) (seen : List String) (n : String)
    (h : n ∈ attribute_names (keep_first_occurrence seen l)) : n ∈ attribute_names l :=
  ((keep_first_sublist l seen).map xml_attribute.name).subset h

theorem keep_first_length (l : List xml_attribute) :
    (keep_first_occurrence [] l).length = (attribute_names l).toFinset.card := by
  have hnd := keep_first_names_nodup l []
  have hset : (attribute_names (keep_first_occurrence [] l)).toFinset
      = (attribute_names l).toFinset := by
    ext n
    simp only [List.mem_toFinset]
    exact ⟨keep_first_names_subset l [] n, keep_first_mem_names l [] n (by simp)⟩
  rw [← hset, List.toFinset_card_of_nodup hnd]
  simp [attribute_names]

/-! ## Properties of `remove_duplicate_nodes` and `rapid_filter` -/

/-- C1: after `remove_duplicate_nodes` runs on the root of a tree, every node of
the tree (the root and every descendant, at any depth) has pairwise distinct
attribute names. -/
theorem attribute_names_distinct (root : xml_node) (path : List Nat) (node : xml_node)
    (h : node_at (remove_duplicate_nodes root) path = some node) :
    (attribute_names node.attributes).Nodup := by
  rw [node_at_remove_duplicate_nodes] at h
  cases hm : node_at root path with
  | none => simp [hm] at h
  | some m =>
    simp only [hm, Option.map_some', Option.some.injEq] at h
    subst h
    rw [remove_duplicate_nodes_eq]
    exact keep_first_names_nodup m.attributes []

/-- Witness of C1 on the sample tree, at the child node. -/
theorem attribute_names_distinct_witness :
    node_at (remove_duplicate_nodes sample_root) [0]
        = some (.mk .node_element "child" "" [⟨"x", "9"⟩, ⟨"y", "5"⟩] [])
      ∧ (attribute_names
          (xml_node.mk .node_element "child" "" [⟨"x", "9"⟩, ⟨"y", "5"⟩] []).attributes).Nodup :=
  ⟨rfl, attribute_names_distinct sample_root [0] _ rfl⟩

/-- C2: for every node of a tree and every attribute name `n` occurring on it
before the call, the node afterwards carries exactly one attribute named `n`,
and that attribute is the lowest-index attribute named `n` of the original
attribute sequence, with its value. -/
theorem first_occurrence_kept (root : xml_node) (path : List Nat) (node : xml_node)
    (n : String) (h : node_at root path = some node)
    (hn : n ∈ attribute_names node.attributes) :
    ∃ (node' : xml_node) (a : xml_attribute),
      node_at (remove_duplicate_nodes root) path = some node'
        ∧ first_named n node.attributes = some a
        ∧ node'.attributes.filter (fun b => b.name = n) = [a]
        ∧ (attribute_names node'.attributes).count n = 1 := by
  have hmem : n ∈ attribute_names (keep_first_occurrence [] node.attributes) :=
    keep_first_mem_names node.attributes [] n (by simp) hn
  have hnd := keep_first_names_nodup node.attributes []
  have hfirst := keep_first_first_named node.attributes [] n (by simp)
  obtain ⟨a, ha⟩ := first_named_of_mem _ n hmem
  refine ⟨remove_duplicate_nodes node, a, ?_, ?_, ?_, ?_⟩
  · rw [node_at_remove_duplicate_nodes, h]; rfl
  · rw [← hfirst]; exact ha
  · rw [remove_duplicate_nodes_eq]
    exact filter_of_first_named _ n a hnd ha
  · rw [remove_duplicate_nodes_eq]
    exact List.count_eq_one_of_mem hnd hmem

/-- Witness of C2: attributes `a=1, b=2, a=3` become `a=1, b=2`. -/
theorem first_occurrence_kept_witness :
    node_at sample_nested [0]
        = some (.mk .node_element "q" "" [⟨"a", "1"⟩, ⟨"b", "2"⟩, ⟨"a", "3"⟩] [])
      ∧ "a" ∈ attribute_names
          (xml_node.mk .node_element "q" "" [⟨"a", "1"⟩, ⟨"b", "2"⟩, ⟨"a", "3"⟩] []).attributes
      ∧ node_at (remove_duplicate_nodes sample_nested) [0]
        = some (.mk .node_element "q" "" [⟨"a", "1"⟩, ⟨"b", "2"⟩] [])
      ∧ ∃ (node' : xml_node) (a : xml_attribute),
          node_at (remove_duplicate_nodes sample_nested) [0] = some node'
            ∧ first_named "a"
                (xml_node.mk .node_element "q" "" [⟨"a", "1"⟩, ⟨"b", "2"⟩, ⟨"a", "3"⟩] []).attributes
              = some a
            ∧ node'.attributes.filter (fun b => b.name = "a") = [a]
            ∧ (attribute_names node'.attributes).count "a" = 1 :=
  ⟨rfl, by decide, rfl, first_occurrence_kept sample_nested [0] _ "a" rfl (by decide)⟩

/-- C3: for every node of a tree, the attribute sequence left by
`remove_duplicate_nodes` is a subsequence of the node's original attribute
sequence: order is kept and every surviving attribute is an original one, with
its name and value. -/
theorem attributes_subsequence (root : xml_node) (path : List Nat) (node : xml_node)
    (h : node_at root path = some node) :
    ∃ node' : xml_node,
      node_at (remove_duplicate_nodes root) path = some node'
        ∧ List.Sublist node'.attributes node.attributes := by
  refine ⟨remove_duplicate_nodes node, ?_, ?_⟩
  · rw [node_at_remove_duplicate_nodes, h]; rfl
  · rw [remove_duplicate_nodes_eq]
    exact keep_first_sublist node.attributes []

/-- Witness of C3 on the sample tree, at the child node. -/
theorem attributes_subsequence_witness :
    node_at sample_root [0]
        = some (.mk .node_element "child" "" [⟨"x", "9"⟩, ⟨"x", "9"⟩, ⟨"y", "5"⟩] [])
      ∧ ∃ node' : xml_node,
          node_at (remove_duplicate_nodes sample_root) [0] = some node'
            ∧ List.Sublist node'.attributes
                (xml_node.mk .node_element "child" ""
                  [⟨"x", "9"⟩, ⟨"x", "9"⟩, ⟨"y", "5"⟩] []).attributes :=
  ⟨rfl, attributes_subsequence sample_root [0] _ rfl⟩

/-- C4: when the parser succeeds with document `d`, `rapid_filter` returns the
print of `d` in which `remove_duplicate_nodes` has been applied to every
top-level node, in sibling order, the document node itself being left as it
is. -/
theorem rapid_filter_of_parsed (parse : String → Except parse_error xml_document)
    (print : xml_document → String) (src_xml : String) (d : xml_document)
    (h : parse src_xml = .ok d) :
    rapid_filter parse print src_xml
      = print (.mk d.type d.name d.value d.attributes
          (d.children.map remove_duplicate_nodes)) := by
  cases d with
  | mk t n v a children =>
    simp [rapid_filter, h, filter_document, remove_duplicate_siblings_eq_map,
      xml_node.type, xml_node.name, xml_node.value, xml_node.attributes, xml_node.children]

/-- Witness of C4: a document with two top-level nodes, both de-duplicated. -/
theorem rapid_filter_of_parsed_witness :
    sample_parse sample_text = .ok sample_document
      ∧ rapid_filter sample_parse sample_print sample_text
        = sample_print (.mk sample_document.type sample_document.name sample_document.value
            sample_document.attributes
            (sample_document.children.map remove_duplicate_nodes))
      ∧ rapid_filter sample_parse sample_print sample_text = sample_text_clean :=
  ⟨rfl, rapid_filter_of_parsed sample_parse sample_print sample_text sample_document rfl,
    by decide⟩

/-- C5: when the parser reports a parse error, `rapid_filter` returns the empty
string, whatever the error and whatever the printer. -/
theorem rapid_filter_of_parse_error (parse : String → Except parse_error xml_document)
    (print : xml_document → String) (src_xml : String) (e : parse_error)
    (h : parse src_xml = .error e) :
    rapid_filter parse print src_xml = "" := by
  simp [rapid_filter, h]

/-- Witness of C5 on the texts `not xml at all` and `<a><b></a>`, with a parser
that rejects both. -/
theorem rapid_filter_of_parse_error_witness :
    (sample_parse "not xml at all" = .error ⟨"expected <", 0⟩
        ∧ rapid_filter sample_parse sample_print "not xml at all" = "")
      ∧ (sample_parse "<a><b></a>" = .error ⟨"expected <", 0⟩
        ∧ rapid_filter sample_parse sample_print "<a><b></a>" = "") :=
  ⟨⟨rfl, rapid_filter_of_parse_error sample_parse sample_print "not xml at all"
      ⟨"expected <", 0⟩ rfl⟩,
    ⟨rfl, rapid_filter_of_parse_error sample_parse sample_print "<a><b></a>"
      ⟨"expected <", 0⟩ rfl⟩⟩

/-- C6: `remove_duplicate_nodes` leaves the shape of the tree unchanged: the
trees before and after are equal once all attributes are erased, and at every
path the node has the same kind, tag name, text content and number of
children (and there is a node after exactly where there was one before). -/
theorem shape_unchanged (root : xml_node) :
    erase_attributes (remove_duplicate_nodes root) = erase_attributes root
      ∧ ∀ path : List Nat,
          (node_at (remove_duplicate_nodes root) path).map
              (fun m => (m.type, m.name, m.value, m.children.length))
            = (node_at root path).map
              (fun m => (m.type, m.name, m.value, m.children.length)) := by
  refine ⟨erase_attributes_remove_duplicate_nodes root, ?_⟩
  intro path
  rw [node_at_remove_duplicate_nodes, Option.map_map]
  congr 1
  funext m
  simp only [Function.comp]
  rw [remove_duplicate_nodes_eq]
  simp [xml_node.type, xml_node.name, xml_node.value, xml_node.children]

/-- C7: the attributes that survive on a node are determined by that node's own
original attribute sequence alone: the node at any path of the processed tree
is the original node with its attributes replaced by the first occurrences
among its own attributes and its children processed, and two nodes with the
same attribute sequence, in whatever trees and places, are left with the same
attributes. -/
theorem scan_scoped_per_node (root : xml_node) (path : List Nat) (node : xml_node)
    (h : node_at root path = some node) :
    node_at (remove_duplicate_nodes root) path
        = some (.mk node.type node.name node.value
            (keep_first_occurrence [] node.attributes)
            (node.children.map remove_duplicate_nodes))
      ∧ ∀ (root₂ : xml_node) (path₂ : List Nat) (node₂ : xml_node),
          node_at root₂ path₂ = some node₂ → node₂.attributes = node.attributes →
          (node_at (remove_duplicate_nodes root₂) path₂).map xml_node.attributes
            = (node_at (remove_duplicate_nodes root) path).map xml_node.attributes := by
  have key : ∀ (r : xml_node) (p : List Nat) (m : xml_node), node_at r p = some m →
      node_at (remove_duplicate_nodes r) p
        = some (.mk m.type m.name m.value (keep_first_occurrence [] m.attributes)
            (m.children.map remove_duplicate_nodes)) := by
    intro r p m hm
    rw [node_at_remove_duplicate_nodes, hm, Option.map_some', remove_duplicate_nodes_eq]
  refine ⟨key root path node h, ?_⟩
  intro root₂ path₂ node₂ h₂ hattr
  rw [key root path node h, key root₂ path₂ node₂ h₂]
  show some (keep_first_occurrence [] node₂.attributes)
    = some (keep_first_occurrence [] node.attributes)
  rw [hattr]

/-- Witness of C7: the child's duplicated `a` leaves the parent's `a` in place. -/
theorem scan_scoped_per_node_witness :
    node_at sample_nested [] = some sample_nested
      ∧ node_at (remove_duplicate_nodes sample_nested) []
        = some (.mk .node_element "p" "" [⟨"a", "0"⟩]
            [.mk .node_element "q" "" [⟨"a", "1"⟩, ⟨"b", "2"⟩] []])
      ∧ (node_at (remove_duplicate_nodes sample_nested) []
          = some (.mk sample_nested.type sample_nested.name sample_nested.value
              (keep_first_occurrence [] sample_nested.attributes)
              (sample_nested.children.map remove_duplicate_nodes))
        ∧ ∀ (root₂ : xml_node) (path₂ : List Nat) (node₂ : xml_node),
            node_at root₂ path₂ = some node₂ →
            node₂.attributes = sample_nested.attributes →
            (node_at (remove_duplicate_nodes root₂) path₂).map xml_node.attributes
              = (node_at (remove_duplicate_nodes sample_nested) []).map
                  xml_node.attributes) :=
  ⟨rfl, rfl, scan_scoped_per_node sample_nested [] sample_nested rfl⟩

/-- C8: for an input `X` that parses to `d`, if the parser reads the print of
the de-duplicated document back as that same document, then filtering the
output of the filter gives that output again; and `remove_duplicate_nodes`
applied twice to any tree gives the same tree as applying it once. -/
theorem rapid_filter_idempotent (parse : String → Except parse_error xml_document)
    (print : xml_document → String) (X : String) (d : xml_document)
    (hX : parse X = .ok d)
    (hback : parse (print (filter_document d)) = .ok (filter_document d)) :
    rapid_filter parse print (rapid_filter parse print X) = rapid_filter parse print X
      ∧ ∀ node : xml_node,
          remove_duplicate_nodes (remove_duplicate_nodes node) = remove_duplicate_nodes node := by
  refine ⟨?_, remove_duplicate_nodes_idem⟩
  have h1 : rapid_filter parse print X = print (filter_document d) := by
    simp [rapid_filter, hX]
  rw [h1]
  simp only [rapid_filter, hback]
  rw [filter_document_idem]

/-- Witness of C8 on the sample document. -/
theorem rapid_filter_idempotent_witness :
    sample_parse sample_text = .ok sample_document
      ∧ sample_parse (sample_print (filter_document sample_document))
        = .ok (filter_document sample_document)
      ∧ (rapid_filter sample_parse sample_print
            (rapid_filter sample_parse sample_print sample_text)
          = rapid_filter sample_parse sample_print sample_text
        ∧ ∀ node : xml_node,
            remove_duplicate_nodes (remove_duplicate_nodes node)
              = remove_duplicate_nodes node) :=
  ⟨rfl, rfl,
    rapid_filter_idempotent sample_parse sample_print sample_text sample_document rfl rfl⟩

/-- C9: on a tree in which every node already has pairwise distinct attribute
names, `remove_duplicate_nodes` changes nothing: the tree after the call is
the tree before it, attributes included. -/
theorem unchanged_when_distinct (root : xml_node)
    (h : ∀ (path : List Nat) (node : xml_node), node_at root path = some node →
      (attribute_names node.attributes).Nodup) :
    remove_duplicate_nodes root = root := by
  revert h
  refine xml_node_induction
    (fun r => (∀ (path : List Nat) (node : xml_node), node_at r path = some node →
      (attribute_names node.attributes).Nodup) → remove_duplicate_nodes r = r) ?_ root
  intro t n v a children ih h
  rw [remove_duplicate_nodes, remove_duplicate_siblings_eq_map,
    scan_attributes_of_distinct a (h [] _ rfl)]
  congr 1
  have hmap : ∀ c ∈ children, remove_duplicate_nodes c = c := by
    intro c hc
    apply ih c hc
    intro path node hnode
    obtain ⟨i, hi⟩ := List.getElem?_of_mem hc
    apply h (i :: path) node
    simp [node_at, xml_node.children, hi, hnode]
  calc children.map remove_duplicate_nodes
      = children.map id := List.map_congr_left hmap
    _ = children := List.map_id _

/-- Witness of C9 on the de-duplicated sample tree. -/
theorem unchanged_when_distinct_witness :
    (∀ (path : List Nat) (node : xml_node), node_at sample_root_clean path = some node →
        (attribute_names node.attributes).Nodup)
      ∧ remove_duplicate_nodes sample_root_clean = sample_root_clean :=
  have hyp : ∀ (path : List Nat) (node : xml_node),
      node_at sample_root_clean path = some node →
        (attribute_names node.attributes).Nodup := by
    intro path node h
    match path, h with
    | [], h =>
      simp only [node_at, Option.some.injEq] at h
      subst h
      decide
    | [0], h =>
      simp only [node_at, sample_root_clean, xml_node.children, List.getElem?_cons_zero,
        Option.some.injEq] at h
      subst h
      decide
    | 0 :: _ :: _, h =>
      simp [node_at, sample_root_clean, xml_node.children] at h
    | (_ + 1) :: _, h =>
      simp [node_at, sample_root_clean, xml_node.children] at h
  ⟨hyp, unchanged_when_distinct sample_root_clean hyp⟩

/-- C10: `rapid_filter` applied to the empty string returns the empty string,
both when the parser rejects the empty text and when it accepts it as a
document with no nodes whose print is the empty text. -/
theorem rapid_filter_empty (parse : String → Except parse_error xml_document)
    (print : xml_document → String)
    (h : (∃ e, parse "" = .error e)
      ∨ (∃ d, parse "" = .ok d ∧ d.children = [] ∧ print d = "")) :
    rapid_filter parse print "" = "" := by
  rcases h with ⟨e, he⟩ | ⟨d, hd, hc, hp⟩
  · simp [rapid_filter, he]
  · cases d with
    | mk t n v a children =>
      simp only [xml_node.children] at hc
      subst hc
      simpa [rapid_filter, hd, filter_document, remove_duplicate_siblings] using hp

/-- Witness of C10 with a parser that accepts the empty text. -/
theorem rapid_filter_empty_witness :
    ((∃ e, sample_parse "" = .error e)
        ∨ (∃ d, sample_parse "" = .ok d ∧ d.children = [] ∧ sample_print d = ""))
      ∧ rapid_filter sample_parse sample_print "" = "" :=
  have hyp : (∃ e, sample_parse "" = .error e)
      ∨ (∃ d, sample_parse "" = .ok d ∧ d.children = [] ∧ sample_print d = "") :=
    Or.inr ⟨empty_document, rfl, rfl, by decide⟩
  ⟨hyp, rapid_filter_empty sample_parse sample_print hyp⟩

/-! ## The scan as a loop: refinement, cost, names -/

/-- C11: for every attribute sequence, the in-place scan (a cursor walking the
list, moved to the next attribute before the current one is unlinked when its
name is already in the set) leaves exactly the list built by the reference
procedure that keeps the first occurrence of each name; the attributes the
iterations examine are those of the original sequence, each once and in order,
so none is skipped or revisited, and the loop then stops on its own
condition. This holds with any amount of fuel from one unit per attribute. -/
theorem scan_refines_reference (attributes : List xml_attribute) :
    scan_attributes attributes = keep_first_occurrence [] attributes
      ∧ ∀ extra : Nat,
          (loop_run (attributes.length + extra) (scan_init attributes)).attributes
              = keep_first_occurrence [] attributes
            ∧ loop_visits (attributes.length + extra) (scan_init attributes) = attributes
            ∧ loop_step (loop_run (attributes.length + extra) (scan_init attributes))
              = none := by
  refine ⟨scan_attributes_eq attributes, ?_⟩
  intro extra
  have hfuel : attributes.length ≤ attributes.length + extra := Nat.le_add_right _ _
  have hrun := loop_run_from attributes [] [] (attributes.length + extra) hfuel
  have hvis := loop_visits_from attributes [] [] (attributes.length + extra) hfuel
  simp only [List.nil_append, List.length_nil] at hrun hvis
  refine ⟨?_, ?_, loop_exits_with attributes extra⟩
  · simp only [scan_init, first_attribute, hrun]
  · simpa only [scan_init, first_attribute] using hvis

/-- C12: `remove_duplicate_nodes` is a total function on trees, and its scan
examines each attribute once: on a node with `k` attributes the loop performs
exactly `k` iterations and then stops on its own condition (with any amount of
fuel from `k`), so the number of iterations over a subtree is the number of
attributes in that subtree before the call. -/
theorem scan_iteration_count (root : xml_node) :
    count_iterations root = total_attributes root
      ∧ ∀ (attributes : List xml_attribute) (extra : Nat),
          loop_iterations (attributes.length + extra) (scan_init attributes)
              = attributes.length
            ∧ loop_step (loop_run (attributes.length + extra) (scan_init attributes))
              = none :=
  ⟨count_iterations_eq root,
    fun attributes extra =>
      ⟨loop_iterations_init attributes extra, loop_exits_with attributes extra⟩⟩

/-- C13: for every node of a tree, the number of attributes left by
`remove_duplicate_nodes` is the number of distinct attribute names of the
node's original attribute sequence, and the node carries the same set of
attribute names before and after. -/
theorem attribute_count_and_names (root : xml_node) (path : List Nat) (node : xml_node)
    (h : node_at root path = some node) :
    ∃ node' : xml_node,
      node_at (remove_duplicate_nodes root) path = some node'
        ∧ node'.attributes.length = (attribute_names node.attributes).toFinset.card
        ∧ ∀ n : String,
            n ∈ attribute_names node'.attributes ↔ n ∈ attribute_names node.attributes := by
  refine ⟨remove_duplicate_nodes node, ?_, ?_, ?_⟩
  · rw [node_at_remove_duplicate_nodes, h]; rfl
  · rw [remove_duplicate_nodes_eq]
    exact keep_first_length node.attributes
  · intro n
    rw [remove_duplicate_nodes_eq]
    exact ⟨keep_first_names_subset node.attributes [] n,
      keep_first_mem_names node.attributes [] n (by simp)⟩

/-- Witness of C13: of the attributes `a=1, b=2, a=3`, two are left, named `a`
and `b`. -/
theorem attribute_count_and_names_witness :
    node_at sample_nested [0]
        = some (.mk .node_element "q" "" [⟨"a", "1"⟩, ⟨"b", "2"⟩, ⟨"a", "3"⟩] [])
      ∧ node_at (remove_duplicate_nodes sample_nested) [0]
        = some (.mk .node_element "q" "" [⟨"a", "1"⟩, ⟨"b", "2"⟩] [])
      ∧ ∃ node' : xml_node,
          node_at (remove_duplicate_nodes sample_nested) [0] = some node'
            ∧ node'.attributes.length
              = (attribute_names
                  (xml_node.mk .node_element "q" ""
                    [⟨"a", "1"⟩, ⟨"b", "2"⟩, ⟨"a", "3"⟩] []).attributes).toFinset.card
            ∧ ∀ n : String,
                n ∈ attribute_names node'.attributes
                  ↔ n ∈ attribute_names
                      (xml_node.mk .node_element "q" ""
                        [⟨"a", "1"⟩, ⟨"b", "2"⟩, ⟨"a", "3"⟩] []).attributes :=
  ⟨rfl, rfl, attribute_count_and_names sample_nested [0] _ rfl⟩

/-- C14: which attributes are removed depends on the names alone, compared as
whole strings: sending every attribute value through any function `f` commutes
with `remove_duplicate_nodes`; an attribute is removed exactly when its name is
the name of an earlier attribute of the node, whatever the values, so a
repeated name is removed even with an equal value, and two names that differ
only in letter case or by a prefix are both kept. -/
theorem removal_depends_on_names_only (f : String → String) (root : xml_node) :
    remove_duplicate_nodes (map_values f root) = map_values f (remove_duplicate_nodes root)
      ∧ (∀ (l : List xml_attribute) (b : xml_attribute),
          scan_attributes (l ++ [b])
            = if b.name ∈ attribute_names l then scan_attributes l
              else scan_attributes l ++ [b])
      ∧ (∀ a b : xml_attribute,
          scan_attributes [a, b] = if b.name = a.name then [a] else [a, b])
      ∧ scan_attributes [⟨"x", "9"⟩, ⟨"x", "9"⟩] = [⟨"x", "9"⟩]
      ∧ scan_attributes [⟨"id", "1"⟩, ⟨"ID", "1"⟩] = [⟨"id", "1"⟩, ⟨"ID", "1"⟩]
      ∧ scan_attributes [⟨"id", "1"⟩, ⟨"x:id", "1"⟩] = [⟨"id", "1"⟩, ⟨"x:id", "1"⟩] := by
  refine ⟨remove_duplicate_nodes_map_values f root, scan_attributes_snoc, ?_,
    by decide, by decide, by decide⟩
  intro a b
  have h := scan_attributes_snoc [a] b
  have hone : scan_attributes [a] = [a] := by
    rw [scan_attributes_eq]; simp [keep_first_occurrence]
  simpa [hone, attribute_names] using h

end Rapid
